import Mathlib

/-!
Verification of the search orchestration engine of the `imdb-id` crate.

The repository snapshot mixes two revisions of the crate:

* `src/omdb.rs`, `src/clap_wrap.rs`, `src/errors.rs`, … are the current
  revision: `RequestBundle::new` / `RequestBundle::get_results` build the
  fan-out parameter sets and merge the result pages with itertools'
  `kmerge_by` / `unique_by`.  The current revision's `Filters` struct
  (`types : MediaType`, `years : Option<Year>` with `Year(RangeInclusive<u16>)`)
  and its `combinations()` method, as well as `impl MaybeFatal for
  RequestError`, are defined in a file that is not part of the snapshot;
  those definitions are modelled from the spec (marked `Modelled from the
  spec:` below).  Everything else is translated from the source.

* `src/filters.rs` is an older revision (`Filters { genres, years }`,
  `Year` as an enum, `Filters::allows`, `Year::from_str`); it is embedded
  in the `Legacy` namespace.

The merge in `get_results` is itertools 0.10's `kmerge_by`: a binary
min-heap of `HeadTail` (head element + rest of the page) built by
`heapify`/`sift_down` and drained one head at a time.  That algorithm is
embedded generically below (`siftDownF`, `heapifyGo`, `kmergeRunF`), using
an explicit fuel argument in place of the Rust loops so that every
definition reduces in the kernel; the fuel supplied by the wrappers
(`siftDown`, `kmergeRun`) always suffices, see the lemmas.
-/

/-! ## Generic list helpers and the itertools 0.10 `kmerge_by` model -/

/-- Unchecked indexing, `heap[i]` on a Rust slice (all uses are in bounds). -/
def nth {β : Type} [Inhabited β] (l : List β) (i : Nat) : β :=
  l.getD i default

/-- `heap.swap(i, j)` on a Rust slice. -/
def lswap {β : Type} [Inhabited β] (l : List β) (i j : Nat) : List β :=
  (l.set i (nth l j)).set j (nth l i)

/-- itertools `kmerge_impl::sift_down`, specialised to a comparator
`|a, b| k a < k b`.  The `while` loop is unrolled through `fuel`; any
`fuel ≥ heap.length - pos` gives the loop's result (the loop advances
`pos` strictly each iteration). -/
def siftDownF {β : Type} [Inhabited β] (k : β → Nat) :
    Nat → List β → Nat → List β
  | 0, heap, _ => heap
  | fuel + 1, heap, pos =>
    let child := 2 * pos + 1
    if child + 1 < heap.length then
      -- pick the smaller of the two children (strict comparison, so the
      -- left child wins ties)
      let c := if k (nth heap (child + 1)) < k (nth heap child) then child + 1 else child
      if k (nth heap c) < k (nth heap pos) then
        siftDownF k fuel (lswap heap pos c) c
      else heap
    else if child + 1 = heap.length then
      -- the last (left) child was an only child: compare it with the parent
      if k (nth heap child) < k (nth heap pos) then lswap heap pos child else heap
    else heap

/-- itertools `sift_down` with the fuel the loop can need at most. -/
def siftDown {β : Type} [Inhabited β] (k : β → Nat) (heap : List β) (pos : Nat) : List β :=
  siftDownF k heap.length heap pos

/-- itertools `kmerge_impl::heapify`: `for i in (0..data.len() / 2).rev() { sift_down(data, i) }`. -/
def heapifyGo {β : Type} [Inhabited β] (k : β → Nat) : List β → Nat → List β
  | heap, 0 => heap
  | heap, n + 1 => heapifyGo k (siftDown k heap n) n

def heapifyL {β : Type} [Inhabited β] (k : β → Nat) (heap : List β) : List β :=
  heapifyGo k heap (heap.length / 2)

/-- itertools `HeadTail`: head element and tail of one source iterator. -/
structure HeadTail (α : Type) where
  head : α
  tail : List α
deriving DecidableEq

instance {α : Type} [Inhabited α] : Inhabited (HeadTail α) := ⟨⟨default, []⟩⟩

/-- The whole remaining sequence a `HeadTail` stands for. -/
def chainOf {α : Type} (ht : HeadTail α) : List α := ht.head :: ht.tail

/-- `Vec::swap_remove(0)`: remove the front element, moving the last element
into its place. -/
def swapRemoveFront {β : Type} : List β → List β
  | [] => []
  | _ :: rest =>
    match rest.getLast? with
    | none => []
    | some last => last :: rest.dropLast

/-- Total number of elements left in the heap's chains. -/
def totalSize {α : Type} (heap : List (HeadTail α)) : Nat :=
  (heap.map fun ht => ht.tail.length + 1).sum

/-- The heap comparator of `kmerge_by`: compare `HeadTail`s by their heads. -/
def htKey {α : Type} (key : α → Nat) (ht : HeadTail α) : Nat := key ht.head

/-- The drain loop of itertools `KMergeBy::next`: emit the root's head; if the
root's tail is nonempty advance it, otherwise `swap_remove(0)`; then
`sift_down(heap, 0)`.  `fuel = totalSize heap` always suffices (each step
removes exactly one element). -/
def kmergeRunF {α : Type} [Inhabited α] (key : α → Nat) :
    Nat → List (HeadTail α) → List α
  | _, [] => []
  | 0, _ :: _ => []
  | fuel + 1, ht :: rest =>
    match ht.tail with
    | next :: ts =>
        ht.head :: kmergeRunF key fuel (siftDown (htKey key) (⟨next, ts⟩ :: rest) 0)
    | [] =>
        ht.head :: kmergeRunF key fuel (siftDown (htKey key) (swapRemoveFront (ht :: rest)) 0)

def kmergeRun {α : Type} [Inhabited α] (key : α → Nat) (heap : List (HeadTail α)) : List α :=
  kmergeRunF key (totalSize heap) heap

/-- `HeadTail::new`: `None` for an empty source iterator. -/
def headTailOf {α : Type} : List α → Option (HeadTail α)
  | [] => none
  | x :: xs => some ⟨x, xs⟩

/-- itertools `kmerge_by` (0.10), specialised to the comparator
`|a, b| key a < key b`: build `HeadTail`s of the nonempty sources, heapify
by head, then drain. -/
def kmergeBy {α : Type} [Inhabited α] (key : α → Nat) (lists : List (List α)) : List α :=
  kmergeRun key (heapifyL (htKey key) (lists.filterMap headTailOf))

/-- itertools `unique_by`: keep the first element for each key, preserving
order (the key set mirrors the `HashSet` of seen keys). -/
def uniqueByKeyGo {α κ : Type} [DecidableEq κ] (key : α → κ) (seen : List κ) :
    List α → List α
  | [] => []
  | x :: xs =>
    if key x ∈ seen then uniqueByKeyGo key seen xs
    else x :: uniqueByKeyGo key (key x :: seen) xs

def uniqueByKey {α κ : Type} [DecidableEq κ] (key : α → κ) (l : List α) : List α :=
  uniqueByKeyGo key [] l

/-- The merge step of `get_results`:
`result_sets.into_iter().map(|set| set.into_iter().enumerate()).kmerge_by(|a, b| a.0 < b.0)`. -/
def kmergeRanked {γ : Type} [Inhabited γ] (pages : List (List γ)) : List (Nat × γ) :=
  kmergeBy Prod.fst (pages.map List.enum)

/-! ## `src/filters.rs` (the older revision present in the snapshot) -/

namespace Legacy

/-- `Year` of the older `filters.rs`: a single year or a range with
optionally open ends (`stop` is the source's `end`, a Lean keyword).  The
source comment says start and end should never both be `None`. -/
inductive Year where
  | Single (y : Nat)
  | Range (start : Option Nat) (stop : Option Nat)
deriving DecidableEq

/-- `Year::contains`:
`start.map_or(true, |n| year >= n) && end.map_or(true, |n| year <= n)`. -/
def Year.contains : Year → Nat → Bool
  | .Single n, year => n == year
  | .Range start stop, year =>
      (match start with | none => true | some n => decide (n ≤ year)) &&
      (match stop with | none => true | some n => decide (year ≤ n))

/-- `Year::SEPARATORS = ['-', '–']` (hyphen and en-dash). -/
def isSeparator (c : Char) : Bool := c == '-' || c == '–'

/-- Rust `str::parse::<u16>()` on a char sequence: an optional leading `+`,
then one or more ASCII digits, and the value must fit in `u16`
(`ParseIntError` collapsed to `none`). -/
def parseU16 (cs : List Char) : Option Nat :=
  let ds := match cs with
    | '+' :: rest => rest
    | _ => cs
  if ds.isEmpty then none
  else if ds.all fun c => c.isDigit then
    let n := ds.foldl (fun acc c => acc * 10 + (c.toNat - 48)) 0
    if n < 65536 then some n else none
  else none

/-- `year_str.starts_with(&Year::SEPARATORS[..])`. -/
def startsWithSep (cs : List Char) : Bool :=
  match cs with
  | [] => false
  | c :: _ => isSeparator c

/-- `year_str.ends_with(&Year::SEPARATORS[..])`. -/
def endsWithSep (cs : List Char) : Bool :=
  match cs.getLast? with
  | none => false
  | some c => isSeparator c

/-- `str::split_once(&Year::SEPARATORS[..])`: split at the first separator
char, which is removed. -/
def splitOnceSep : List Char → Option (List Char × List Char)
  | [] => none
  | c :: rest =>
    if isSeparator c then some ([], rest)
    else match splitOnceSep rest with
      | none => none
      | some (l, r) => some (c :: l, r)

/-- `Year::from_str` of the older `filters.rs`, on the string's chars:
`-YYYY`, `YYYY-`, `YYYY-YYYY` (endpoints swapped when inverted) or `YYYY`. -/
def Year.from_str (cs : List Char) : Option Year :=
  if startsWithSep cs then
    match parseU16 (cs.drop 1) with
    | some e => some (.Range none (some e))
    | none => none
  else if endsWithSep cs then
    match parseU16 cs.dropLast with
    | some s => some (.Range (some s) none)
    | none => none
  else
    match splitOnceSep cs with
    | some (l, r) =>
      match parseU16 l, parseU16 r with
      | some s, some e =>
        if s > e then some (.Range (some e) (some s))
        else some (.Range (some s) (some e))
      | some _, none => none
      | none, _ => none
    | none =>
      match parseU16 cs with
      | some n => some (.Single n)
      | none => none

/-- `Genre` of the older `filters.rs`. -/
inductive Genre where
  | Movie
  | Series
  | Episode
  | Other (s : String)
deriving DecidableEq

def Genre.as_str : Genre → String
  | .Movie => "movie"
  | .Series => "series"
  | .Episode => "episode"
  | .Other s => s

/-- Rust `char::to_ascii_lowercase`. -/
def asciiLowerChar (c : Char) : Char :=
  if 'A' ≤ c ∧ c ≤ 'Z' then Char.ofNat (c.toNat + 32) else c

/-- Rust `str::eq_ignore_ascii_case`. -/
def eqIgnoreAsciiCase (a b : String) : Bool :=
  a.data.map asciiLowerChar == b.data.map asciiLowerChar

/-- `SearchResult` as the older `filters.rs` consumes it (`media_type` is a
genre string from the scrape: `Movie`, `"Video"`, `"TV Series"`, …). -/
structure SearchResult where
  title : String
  imdb_id : String
  media_type : Genre
  year : Year
deriving DecidableEq

/-- `Filters` of the older `filters.rs`. -/
structure Filters where
  genres : List Genre
  years : Option Year
deriving DecidableEq

/-- `Filters::allows`, arm for arm from the source. -/
def Filters.allows (f : Filters) (sr : SearchResult) : Bool :=
  let year_matches :=
    match f.years with
    | some fy =>
      match fy, sr.year with
      | .Single a, .Single b => a == b
      | .Range none _, .Range none _ => true
      | .Range _ none, .Range _ none => true
      | .Range s1 e1, .Range s e =>
          (match s with | none => false | some v => (Year.Range s1 e1).contains v) ||
          (match e with | none => false | some v => (Year.Range s1 e1).contains v)
      | .Single a, .Range s e => (Year.Range s e).contains a
      | .Range s1 e1, .Single b => (Year.Range s1 e1).contains b
    | none => true
  let genre_matches :=
    f.genres.isEmpty ||
      f.genres.any fun g => eqIgnoreAsciiCase sr.media_type.as_str g.as_str
  year_matches && genre_matches

/-- Spec-side notion for C5: a range is well formed when its endpoints are
ordered (guaranteed by `Year::from_str`, which swaps inverted bounds). -/
def Year.wf : Year → Prop
  | .Range (some s) (some e) => s ≤ e
  | _ => True

/-- Spec-side notion for C5: two (possibly open-ended) year constraints
overlap when some year satisfies both. -/
def yearsOverlap (a b : Year) : Prop :=
  ∃ y : Nat, a.contains y = true ∧ b.contains y = true

/-- Spec-side notion for C5: the candidate's media type intersects the
allowed set (an empty set means no constraint). -/
def mediaTypeIntersects (f : Filters) (sr : SearchResult) : Prop :=
  f.genres = [] ∨ ∃ g ∈ f.genres, eqIgnoreAsciiCase sr.media_type.as_str g.as_str = true

/-- Spec-side notion for C5: the candidate's year overlaps the (optional)
year filter. -/
def yearOverlapOk (f : Filters) (sr : SearchResult) : Prop :=
  match f.years with
  | none => True
  | some fy => yearsOverlap fy sr.year

end Legacy

/-! ## `src/omdb.rs` (current revision) and the parts modelled from the spec -/

namespace Omdb

/-- `MediaType`, a bitflags set with the three flags MOVIE, SERIES, GAME. -/
structure MediaType where
  movie : Bool
  series : Bool
  game : Bool
deriving DecidableEq

def MediaType.ALL : MediaType := ⟨true, true, true⟩

/-- `MediaType::count`. -/
def MediaType.count (t : MediaType) : Nat :=
  t.movie.toNat + t.series.toNat + t.game.toNat

/-- `MediaType::str_iter`: `[movie, series, game].into_iter().flatten()`. -/
def MediaType.str_iter (t : MediaType) : List String :=
  ([if t.movie then some "movie" else none,
    if t.series then some "series" else none,
    if t.game then some "game" else none] : List (Option String)).filterMap id

/-- Modelled from the spec: the current revision's `Year` is a tuple struct
wrapping an inclusive year range (`Year(RangeInclusive<u16>)`, see the
`clap_wrap.rs` tests `Year(1980..=2010)`); its defining file is not under
`src/`.  `stop` is the range's inclusive upper end. -/
structure Year where
  start : Nat
  stop : Nat
deriving DecidableEq

/-- Iterating `years.0.clone()`: the years in ascending order (empty when
`start > stop`). -/
def Year.toList (y : Year) : List Nat :=
  List.range' y.start (y.stop + 1 - y.start)

/-- Modelled from the spec: the current revision's `Filters` (`types` plus an
optional year range), whose defining file is not under `src/`; the shape is
fixed by its uses in `omdb.rs` and `clap_wrap.rs`. -/
structure Filters where
  types : MediaType
  years : Option Year
deriving DecidableEq

/-- Modelled from the spec: `Filters::combinations` is not under `src/`.
Per the spec it is 1 when neither dimension is constrained, the year-range
width when only years are constrained, and `k * n` for `k` selected media
types and a year range of width `n` (the `ALL` media-type value counts as
unconstrained). -/
def Filters.combinations (f : Filters) : Nat :=
  (if f.types = MediaType.ALL then 1 else f.types.count) *
    (match f.years with
     | none => 1
     | some y => y.toList.length)

/-- `FilterParameters`: one concrete single-valued combination. -/
structure FilterParameters where
  media_type : Option String
  year : Option Nat
deriving DecidableEq

instance : Inhabited FilterParameters := ⟨⟨none, none⟩⟩

/-- itertools `cartesian_product`: the first iterator is the outer loop. -/
def cartesianProduct {γ δ : Type} (l₁ : List γ) (l₂ : List δ) : List (γ × δ) :=
  l₁.flatMap fun a => l₂.map fun b => (a, b)

/-- The parameter-set computation of `RequestBundle::new`, with the request
budget (`MAX_REQUESTS_PER_SEARCH`) passed explicitly. -/
def newParams (filters : Filters) (maxRequestsPerSearch : Nat) : List FilterParameters :=
  if filters.types = MediaType.ALL then
    match filters.years with
    | none =>
      -- No filters at all
      [⟨none, none⟩]
    | some years =>
      -- Just years specified
      (years.toList.take maxRequestsPerSearch).map fun y => ⟨none, some y⟩
  else
    match filters.years with
    | none =>
      -- Just media type specified
      filters.types.str_iter.map fun mt => ⟨some mt, none⟩
    | some years =>
      -- Both years and media type specified
      ((cartesianProduct years.toList filters.types.str_iter).take maxRequestsPerSearch).map
        fun p => ⟨some p.2, some p.1⟩

/-- `RequestError` of `src/errors.rs` (payloads collapsed to their display
strings). -/
inductive RequestError where
  | Web (msg : String)
  | Deserialisation (err : String) (body : String)
  | Omdb (msg : String)
deriving DecidableEq

/-- Modelled from the spec: `impl MaybeFatal for RequestError` is not under
`src/` (only the `MaybeFatal` trait and the call site in `get_results`
are).  Per the spec: transport/connection errors are fatal, upstream
application error messages are fatal, and schema/deserialisation failures
are recoverable. -/
def RequestError.is_fatal : RequestError → Bool
  | .Web _ => true
  | .Deserialisation _ _ => false
  | .Omdb _ => true

/-- `SearchResult` of the current `omdb.rs`. -/
structure SearchResult where
  title : String
  year : Year
  imdb_id : String
  media_type : MediaType
deriving DecidableEq

instance : Inhabited SearchResult := ⟨⟨"", ⟨0, 0⟩, "", ⟨false, false, false⟩⟩⟩

/-- `SearchResults`: one deserialised result page. -/
structure SearchResults where
  entries : List SearchResult
  total_results : Nat
deriving DecidableEq

/-- The guard `matches!(&missing, RequestError::Omdb(msg) if msg.ends_with("not found!"))`. -/
def isNotFound : RequestError → Bool
  | .Omdb msg => msg.endsWith "not found!"
  | _ => false

/-- The merge-and-deduplicate pipeline at the end of `get_results`:
enumerate each page, `kmerge_by(|a, b| a.0 < b.0)`, drop the ranks. -/
def mergeEntries (resultSets : List (List SearchResult)) : List SearchResult :=
  (kmergeRanked resultSets).map Prod.snd

/-- Result of `get_results`.  `crashed` models the `Option::unwrap()` panic
on `no_results_err` when no search returned a page and none reported
"not found!". -/
inductive GetResultsOutcome where
  | ok (results : List SearchResult)
  | err (e : RequestError)
  | crashed
deriving DecidableEq

/-- The fan-out loop of `RequestBundle::get_results`.  `send` abstracts
`send_omdb_search` on the request built from one parameter set;
`readingTime` is the accumulated warning-reading delay (it only feeds the
final `thread::sleep`, an I/O effect outside the model). -/
def getResultsLoop (send : FilterParameters → Except RequestError SearchResults) :
    List FilterParameters → List (List SearchResult) → Option RequestError → Nat →
      GetResultsOutcome
  | [], resultSets, noResultsErr, _ =>
    -- Only throw no results error if all searches returned nothing
    if resultSets.isEmpty then
      match noResultsErr with
      | some e => .err e
      | none => .crashed
    else
      .ok (uniqueByKey (fun sr => sr.imdb_id) (mergeEntries resultSets))
  | p :: ps, resultSets, noResultsErr, readingTime =>
    match send p with
    | .ok results => getResultsLoop send ps (resultSets ++ [results.entries]) noResultsErr readingTime
    | .error missing =>
      if isNotFound missing then
        getResultsLoop send ps resultSets (some missing) readingTime
      else if missing.is_fatal then
        .err missing
      else
        getResultsLoop send ps resultSets noResultsErr (readingTime + 200)

/-- `RequestBundle::get_results` over its parameter sets. -/
def getResults (send : FilterParameters → Except RequestError SearchResults)
    (params : List FilterParameters) : GetResultsOutcome :=
  getResultsLoop send params [] none 0

/-- Spec-side definition for C7: the canonical media-type order
movie, series, game restricted to the selected set. -/
def canonicalTypeStrs (t : MediaType) : List String :=
  ["movie", "series", "game"].filter fun s =>
    (s == "movie" && t.movie) || (s == "series" && t.series) || (s == "game" && t.game)

/-- A concrete request function exercising the fatal short-circuit: the
parameter set for year 2 fails with a transport error, every other
parameter set succeeds with a one-entry page. -/
def c2send (q : FilterParameters) : Except RequestError SearchResults :=
  if q.year = some 2 then .error (.Web "connection refused")
  else .ok ⟨[⟨"Up", ⟨2009, 2009⟩, "tt1049413", ⟨true, false, false⟩⟩], 1⟩

/-- Two one-entry result pages sharing an imdb_id, exercising deduplication. -/
def c6sets : List (List SearchResult) :=
  [[⟨"A", ⟨2000, 2000⟩, "tt0000001", ⟨true, false, false⟩⟩],
   [⟨"B", ⟨2001, 2001⟩, "tt0000001", ⟨false, true, false⟩⟩]]

end Omdb

/-! ## Lemmas about the index helpers -/

section HeapLemmas

variable {β : Type} [Inhabited β]

theorem nth_set_eq (l : List β) (i : Nat) (a : β) (h : i < l.length) :
    nth (l.set i a) i = a := by
  simp [nth, List.getD_eq_getElem?_getD, List.getElem?_set_self h]

theorem nth_set_ne (l : List β) (i j : Nat) (a : β) (h : i ≠ j) :
    nth (l.set i a) j = nth l j := by
  simp [nth, List.getD_eq_getElem?_getD, List.getElem?_set_ne h]

theorem length_lswap (l : List β) (i j : Nat) : (lswap l i j).length = l.length := by
  simp [lswap]

theorem nth_lswap_left (l : List β) {i j : Nat} (hij : i ≠ j) (hi : i < l.length) :
    nth (lswap l i j) i = nth l j := by
  unfold lswap
  rw [nth_set_ne _ _ _ _ fun h => hij h.symm, nth_set_eq _ _ _ hi]

theorem nth_lswap_right (l : List β) {i j : Nat} (hj : j < l.length) :
    nth (lswap l i j) j = nth l i := by
  unfold lswap
  rw [nth_set_eq]
  rwa [List.length_set]

theorem nth_lswap_other (l : List β) {i j m : Nat} (hmi : m ≠ i) (hmj : m ≠ j) :
    nth (lswap l i j) m = nth l m := by
  unfold lswap
  rw [nth_set_ne _ _ _ _ fun h => hmj h.symm, nth_set_ne _ _ _ _ fun h => hmi h.symm]

theorem set_cons_perm (xs : List β) (m : Nat) (x : β) (h : m < xs.length) :
    (nth xs m :: xs.set m x).Perm (x :: xs) := by
  induction xs generalizing m with
  | nil => simp at h
  | cons y ys ih =>
    cases m with
    | zero => simpa [nth] using List.Perm.swap x y ys
    | succ m =>
      have h' : m < ys.length := by simpa using h
      have e1 : nth (y :: ys) (m + 1) = nth ys m := by simp [nth]
      rw [e1, List.set_cons_succ]
      exact (List.Perm.swap y (nth ys m) (ys.set m x)).trans
        (((ih m h').cons y).trans (List.Perm.swap x y ys))

theorem lswap_perm (l : List β) : ∀ {i j : Nat}, i < j → j < l.length → (lswap l i j).Perm l := by
  induction l with
  | nil => intro i j _ h; simp at h
  | cons x xs ih =>
    intro i j hij hj
    cases i with
    | zero =>
      cases j with
      | zero => omega
      | succ m =>
        have hm : m < xs.length := by simpa using hj
        have e : lswap (x :: xs) 0 (m + 1) = nth xs m :: xs.set m x := by
          simp [lswap, nth]
        rw [e]
        exact set_cons_perm xs m x hm
    | succ a =>
      cases j with
      | zero => omega
      | succ b =>
        have e : lswap (x :: xs) (a + 1) (b + 1) = x :: lswap xs a b := by
          simp [lswap, nth]
        rw [e]
        exact (ih (by omega) (by simpa using hj)).cons x

/-- Index `i` lies in the subtree rooted at `r` of the implicit binary heap
(the children of `p` are `2p+1` and `2p+2`, so the parent of `i > 0` is
`(i-1)/2`). -/
inductive InSub (r : Nat) : Nat → Prop where
  | refl : InSub r r
  | step {i : Nat} : 0 < i → r < i → InSub r ((i - 1) / 2) → InSub r i

theorem InSub.le {r i : Nat} (h : InSub r i) : r ≤ i := by
  cases h with
  | refl => exact Nat.le_refl r
  | step _ h2 _ => omega

theorem InSub.child {r i j : Nat} (h : InSub r i) (hj : j = 2 * i + 1 ∨ j = 2 * i + 2) :
    InSub r j := by
  have hle := h.le
  refine .step (by omega) (by omega) ?_
  have e : (j - 1) / 2 = i := by omega
  rwa [e]

theorem InSub.trans {r c i : Nat} (h1 : InSub r c) (h2 : InSub c i) : InSub r i := by
  induction h2 with
  | refl => exact h1
  | step hpos hlt hp ih =>
    have := h1.le
    exact .step hpos (by omega) ih

theorem InSub.decomp {r i : Nat} (h : InSub r i) :
    i = r ∨ InSub (2 * r + 1) i ∨ InSub (2 * r + 2) i := by
  induction h with
  | refl => exact Or.inl rfl
  | step hpos hlt hp ih =>
    rename_i i
    rcases ih with hpr | h1 | h2
    · have : i = 2 * r + 1 ∨ i = 2 * r + 2 := by omega
      rcases this with h | h
      · exact Or.inr (Or.inl (h ▸ InSub.refl))
      · exact Or.inr (Or.inr (h ▸ InSub.refl))
    · exact Or.inr (Or.inl (.step hpos (by have := h1.le; omega) h1))
    · exact Or.inr (Or.inr (.step hpos (by have := h2.le; omega) h2))

theorem InSub.nested {a b x : Nat} (hax : InSub a x) (hbx : InSub b x) (hab : a ≤ b) :
    InSub a b := by
  induction hbx with
  | refl => exact hax
  | step hpos hlt hp ih =>
    cases hax with
    | refl => exact absurd hab (by omega)
    | step _ _ hp2 => exact ih hp2

theorem insub_zero (i : Nat) : InSub 0 i := by
  induction i using Nat.strong_induction_on with
  | _ i ih =>
    cases i with
    | zero => exact .refl
    | succ n => exact .step (by omega) (by omega) (ih _ (by omega))

theorem InSub.parent {r i : Nat} (h : InSub r i) (hne : i ≠ r) :
    0 < i ∧ r < i ∧ InSub r ((i - 1) / 2) := by
  cases h with
  | refl => exact absurd rfl hne
  | step h1 h2 h3 => exact ⟨h1, h2, h3⟩

theorem sibling_not_insub (pos x : Nat) :
    ¬(InSub (2 * pos + 1) x ∧ InSub (2 * pos + 2) x) := by
  rintro ⟨h1, h2⟩
  have h3 : InSub (2 * pos + 1) (2 * pos + 2) := h1.nested h2 (by omega)
  obtain ⟨-, -, hp⟩ := h3.parent (by omega)
  have e : (2 * pos + 2 - 1) / 2 = pos := by omega
  rw [e] at hp
  have := hp.le
  omega

/-- The heap property restricted to the subtree rooted at `r`: every
parent-to-child pair inside that subtree (with the child in range) is
ordered by the key. -/
def subHeapAt (k : β → Nat) (heap : List β) (r : Nat) : Prop :=
  ∀ i j, InSub r i → (j = 2 * i + 1 ∨ j = 2 * i + 2) → j < heap.length →
    k (nth heap i) ≤ k (nth heap j)

theorem root_le {k : β → Nat} {heap : List β} {r : Nat} (H : subHeapAt k heap r) :
    ∀ m, InSub r m → m < heap.length → k (nth heap r) ≤ k (nth heap m) := by
  intro m hm
  induction hm with
  | refl => intro _; exact Nat.le_refl _
  | step hpos hlt hp ih =>
    rename_i m
    intro hlen
    have hpar : m = 2 * ((m - 1) / 2) + 1 ∨ m = 2 * ((m - 1) / 2) + 2 := by omega
    have h1 : k (nth heap r) ≤ k (nth heap ((m - 1) / 2)) := ih (by omega)
    have h2 := H ((m - 1) / 2) m hp hpar hlen
    omega

end HeapLemmas

/-! ## Lemmas about `siftDownF` -/

section SiftLemmas

variable {β : Type} [Inhabited β] (k : β → Nat)

theorem siftDownF_length :
    ∀ (fuel : Nat) (heap : List β) (pos : Nat),
      (siftDownF k fuel heap pos).length = heap.length := by
  intro fuel
  induction fuel with
  | zero => intro heap pos; rfl
  | succ n ih =>
    intro heap pos
    simp only [siftDownF]
    split
    · split
      · split
        · rw [ih, length_lswap]
        · rfl
      · split
        · rw [ih, length_lswap]
        · rfl
    · split
      · split
        · exact length_lswap ..
        · rfl
      · rfl

theorem siftDownF_perm :
    ∀ (fuel : Nat) (heap : List β) (pos : Nat), (siftDownF k fuel heap pos).Perm heap := by
  intro fuel
  induction fuel with
  | zero => intro heap pos; exact List.Perm.refl _
  | succ n ih =>
    intro heap pos
    simp only [siftDownF]
    by_cases h1 : 2 * pos + 2 < heap.length
    · rw [if_pos h1]
      by_cases hc : k (nth heap (2 * pos + 2)) < k (nth heap (2 * pos + 1))
      · rw [if_pos hc]
        by_cases hs : k (nth heap (2 * pos + 2)) < k (nth heap pos)
        · rw [if_pos hs]
          exact (ih _ _).trans (lswap_perm heap (by omega) (by omega))
        · rw [if_neg hs]
      · rw [if_neg hc]
        by_cases hs : k (nth heap (2 * pos + 1)) < k (nth heap pos)
        · rw [if_pos hs]
          exact (ih _ _).trans (lswap_perm heap (by omega) (by omega))
        · rw [if_neg hs]
    · rw [if_neg h1]
      by_cases h2 : 2 * pos + 2 = heap.length
      · rw [if_pos h2]
        by_cases hs : k (nth heap (2 * pos + 1)) < k (nth heap pos)
        · rw [if_pos hs]
          exact lswap_perm heap (by omega) (by omega)
        · rw [if_neg hs]
      · rw [if_neg h2]

theorem siftDownF_nth_outside :
    ∀ (fuel : Nat) (heap : List β) (pos : Nat) (m : Nat), ¬InSub pos m →
      nth (siftDownF k fuel heap pos) m = nth heap m := by
  intro fuel
  induction fuel with
  | zero => intro heap pos m _; rfl
  | succ n ih =>
    intro heap pos m hm
    have hmp : m ≠ pos := fun h => hm (h ▸ InSub.refl)
    simp only [siftDownF]
    by_cases h1 : 2 * pos + 2 < heap.length
    · rw [if_pos h1]
      by_cases hc : k (nth heap (2 * pos + 2)) < k (nth heap (2 * pos + 1))
      · rw [if_pos hc]
        by_cases hs : k (nth heap (2 * pos + 2)) < k (nth heap pos)
        · rw [if_pos hs]
          have hcsub : InSub pos (2 * pos + 2) := InSub.refl.child (Or.inr rfl)
          have hmc : m ≠ 2 * pos + 2 := fun h => hm (h ▸ hcsub)
          have hnc : ¬InSub (2 * pos + 2) m := fun h => hm (hcsub.trans h)
          rw [ih _ _ _ hnc, nth_lswap_other heap hmp hmc]
        · rw [if_neg hs]
      · rw [if_neg hc]
        by_cases hs : k (nth heap (2 * pos + 1)) < k (nth heap pos)
        · rw [if_pos hs]
          have hcsub : InSub pos (2 * pos + 1) := InSub.refl.child (Or.inl rfl)
          have hmc : m ≠ 2 * pos + 1 := fun h => hm (h ▸ hcsub)
          have hnc : ¬InSub (2 * pos + 1) m := fun h => hm (hcsub.trans h)
          rw [ih _ _ _ hnc, nth_lswap_other heap hmp hmc]
        · rw [if_neg hs]
    · rw [if_neg h1]
      by_cases h2 : 2 * pos + 2 = heap.length
      · rw [if_pos h2]
        by_cases hs : k (nth heap (2 * pos + 1)) < k (nth heap pos)
        · rw [if_pos hs]
          have hcsub : InSub pos (2 * pos + 1) := InSub.refl.child (Or.inl rfl)
          have hmc : m ≠ 2 * pos + 1 := fun h => hm (h ▸ hcsub)
          exact nth_lswap_other heap hmp hmc
        · rw [if_neg hs]
      · rw [if_neg h2]

/-- One swap step of `sift_down`, seen by `siftDownF_nth_source`: every slot
of the subtree of `pos` holds, after the step, a value from the subtree. -/
theorem siftDown_swap_source (n : Nat)
    (ih : ∀ (heap : List β) (pos m : Nat), InSub pos m → m < heap.length →
      ∃ m', InSub pos m' ∧ m' < heap.length ∧ nth (siftDownF k n heap pos) m = nth heap m')
    (heap : List β) (pos c m : Nat)
    (hcc : c = 2 * pos + 1 ∨ c = 2 * pos + 2) (hclen : c < heap.length)
    (hm : InSub pos m) (hlen : m < heap.length) :
    ∃ m', InSub pos m' ∧ m' < heap.length ∧
      nth (siftDownF k n (lswap heap pos c) c) m = nth heap m' := by
  have hpc : pos < c := by omega
  have hplen : pos < heap.length := by omega
  have hcsub : InSub pos c := InSub.refl.child hcc
  by_cases hmc : InSub c m
  · obtain ⟨m'', hm'', hl'', he''⟩ := ih (lswap heap pos c) c m hmc (by rwa [length_lswap])
    rw [length_lswap] at hl''
    by_cases hec : m'' = c
    · subst hec
      rw [nth_lswap_right heap hclen] at he''
      exact ⟨pos, InSub.refl, hplen, he''⟩
    · have hcm : c < m'' := Nat.lt_of_le_of_ne hm''.le fun h => hec h.symm
      rw [nth_lswap_other heap (by omega) hec] at he''
      exact ⟨m'', hcsub.trans hm'', hl'', he''⟩
  · rw [siftDownF_nth_outside k n _ c m hmc]
    by_cases hmp : m = pos
    · subst hmp
      rw [nth_lswap_left heap (by omega) hplen]
      exact ⟨c, hcsub, hclen, rfl⟩
    · have hmc2 : m ≠ c := fun h => hmc (h ▸ InSub.refl)
      rw [nth_lswap_other heap hmp hmc2]
      exact ⟨m, hm, hlen, rfl⟩

theorem siftDownF_nth_source :
    ∀ (fuel : Nat) (heap : List β) (pos : Nat) (m : Nat), InSub pos m → m < heap.length →
      ∃ m', InSub pos m' ∧ m' < heap.length ∧
        nth (siftDownF k fuel heap pos) m = nth heap m' := by
  intro fuel
  induction fuel with
  | zero => intro heap pos m hm hlen; exact ⟨m, hm, hlen, rfl⟩
  | succ n ih =>
    intro heap pos m hm hlen
    simp only [siftDownF]
    by_cases h1 : 2 * pos + 2 < heap.length
    · rw [if_pos h1]
      by_cases hc : k (nth heap (2 * pos + 2)) < k (nth heap (2 * pos + 1))
      · rw [if_pos hc]
        by_cases hs : k (nth heap (2 * pos + 2)) < k (nth heap pos)
        · rw [if_pos hs]
          exact siftDown_swap_source k n (fun heap pos m => ih heap pos m) heap pos
            (2 * pos + 2) m (Or.inr rfl) h1 hm hlen
        · rw [if_neg hs]; exact ⟨m, hm, hlen, rfl⟩
      · rw [if_neg hc]
        by_cases hs : k (nth heap (2 * pos + 1)) < k (nth heap pos)
        · rw [if_pos hs]
          exact siftDown_swap_source k n (fun heap pos m => ih heap pos m) heap pos
            (2 * pos + 1) m (Or.inl rfl) (by omega) hm hlen
        · rw [if_neg hs]; exact ⟨m, hm, hlen, rfl⟩
    · rw [if_neg h1]
      by_cases h2 : 2 * pos + 2 = heap.length
      · rw [if_pos h2]
        by_cases hs : k (nth heap (2 * pos + 1)) < k (nth heap pos)
        · rw [if_pos hs]
          have hcsub : InSub pos (2 * pos + 1) := InSub.refl.child (Or.inl rfl)
          by_cases hmp : m = pos
          · refine ⟨2 * pos + 1, hcsub, by omega, ?_⟩
            rw [hmp, nth_lswap_left heap (by omega) (by omega)]
          · by_cases hmc : m = 2 * pos + 1
            · refine ⟨pos, InSub.refl, by omega, ?_⟩
              rw [hmc, nth_lswap_right heap (by omega)]
            · rw [nth_lswap_other heap hmp hmc]
              exact ⟨m, hm, hlen, rfl⟩
        · rw [if_neg hs]; exact ⟨m, hm, hlen, rfl⟩
      · rw [if_neg h2]; exact ⟨m, hm, hlen, rfl⟩

/-- One swap step of `sift_down`, seen by `siftDownF_subHeap`: swapping the
root with its smaller child `c` (the other child is `o`) and recursively
sifting at `c` yields the heap property on the whole subtree of `pos`. -/
theorem siftDown_swap_subHeap (n : Nat)
    (IH : ∀ (heap : List β) (pos : Nat), heap.length - pos ≤ n →
      (∀ i j, InSub pos i → i ≠ pos → (j = 2 * i + 1 ∨ j = 2 * i + 2) → j < heap.length →
        k (nth heap i) ≤ k (nth heap j)) →
      subHeapAt k (siftDownF k n heap pos) pos)
    (heap : List β) (pos c o : Nat)
    (hco : c = 2 * pos + 1 ∧ o = 2 * pos + 2 ∨ c = 2 * pos + 2 ∧ o = 2 * pos + 1)
    (hclen : c < heap.length)
    (hcleo : o < heap.length → k (nth heap c) ≤ k (nth heap o))
    (hcp : k (nth heap c) < k (nth heap pos))
    (hfuel : heap.length - pos ≤ n + 1)
    (pre : ∀ i j, InSub pos i → i ≠ pos → (j = 2 * i + 1 ∨ j = 2 * i + 2) → j < heap.length →
      k (nth heap i) ≤ k (nth heap j)) :
    subHeapAt k (siftDownF k n (lswap heap pos c) c) pos := by
  have hpc : pos < c := by omega
  have hplen : pos < heap.length := by omega
  have hcsub : InSub pos c := InSub.refl.child (by omega)
  have hosub : InSub pos o := InSub.refl.child (by omega)
  have hnco : ¬InSub c o := by
    intro h
    rcases hco with ⟨hc1, ho1⟩ | ⟨hc1, ho1⟩
    · subst hc1; subst ho1; exact sibling_not_insub pos (2 * pos + 2) ⟨h, InSub.refl⟩
    · subst hc1; subst ho1; exact sibling_not_insub pos (2 * pos + 1) ⟨InSub.refl, h⟩
  have hsubheap_c : subHeapAt k heap c := by
    intro i j hi hj hjlen
    by_cases hic : i = c
    · subst hic; exact pre i j hcsub (by omega) hj hjlen
    · have hci : c < i := Nat.lt_of_le_of_ne hi.le fun h => hic h.symm
      exact pre i j (hcsub.trans hi) (by omega) hj hjlen
  have hchain := root_le hsubheap_c
  have pre' : ∀ i j, InSub c i → i ≠ c → (j = 2 * i + 1 ∨ j = 2 * i + 2) →
      j < (lswap heap pos c).length →
      k (nth (lswap heap pos c) i) ≤ k (nth (lswap heap pos c) j) := by
    intro i j hi hine hj hjlen
    rw [length_lswap] at hjlen
    have hci : c < i := Nat.lt_of_le_of_ne hi.le fun h => hine h.symm
    have hij : i < j := by omega
    rw [nth_lswap_other heap (show i ≠ pos by omega) hine,
        nth_lswap_other heap (show j ≠ pos by omega) (show j ≠ c by omega)]
    exact pre i j (hcsub.trans hi) (by omega) hj hjlen
  have post := IH (lswap heap pos c) c (by rw [length_lswap]; omega) pre'
  intro i j hi hj hjlen
  have hjlen' : j < heap.length := by rwa [siftDownF_length, length_lswap] at hjlen
  have hdecomp : i = pos ∨ InSub c i ∨ InSub o i := by
    rcases hi.decomp with h | h | h
    · exact Or.inl h
    · rcases hco with ⟨hc1, _⟩ | ⟨_, ho1⟩
      · exact Or.inr (Or.inl (by rw [hc1]; exact h))
      · exact Or.inr (Or.inr (by rw [ho1]; exact h))
    · rcases hco with ⟨_, ho1⟩ | ⟨hc1, _⟩
      · exact Or.inr (Or.inr (by rw [ho1]; exact h))
      · exact Or.inr (Or.inl (by rw [hc1]; exact h))
  rcases hdecomp with hip | hci | hoi
  · -- the root of the subtree: compare with both children c and o
    have hvpos : nth (siftDownF k n (lswap heap pos c) c) i = nth heap c := by
      rw [hip, siftDownF_nth_outside k n _ c pos (fun h => absurd h.le (by omega)),
          nth_lswap_left heap (by omega) hplen]
    have hjc : j = c ∨ j = o := by omega
    rcases hjc with hjc | hjo2
    · obtain ⟨m', hm', hl', he'⟩ := siftDownF_nth_source k n (lswap heap pos c) c c
        InSub.refl (by rw [length_lswap]; exact hclen)
      rw [length_lswap] at hl'
      rw [hvpos, hjc, he']
      by_cases hmc : m' = c
      · rw [hmc, nth_lswap_right heap hclen]; exact hcp.le
      · have hcm : c < m' := Nat.lt_of_le_of_ne hm'.le fun h => hmc h.symm
        rw [nth_lswap_other heap (by omega) hmc]
        exact hchain m' hm' hl'
    · rw [hvpos, hjo2, siftDownF_nth_outside k n _ c o hnco,
          nth_lswap_other heap (show o ≠ pos by omega) (show o ≠ c by omega)]
      exact hcleo (by omega)
  · exact post i j hci hj hjlen
  · -- inside the other child's subtree: untouched by the swap and the sift
    have hjo : InSub o j := hoi.child hj
    have hnc_i : ¬InSub c i := by
      intro hc_i
      rcases hco with ⟨hc1, ho1⟩ | ⟨hc1, ho1⟩
      · subst hc1; subst ho1; exact sibling_not_insub pos i ⟨hc_i, hoi⟩
      · subst hc1; subst ho1; exact sibling_not_insub pos i ⟨hoi, hc_i⟩
    have hnc_j : ¬InSub c j := by
      intro hc_j
      rcases hco with ⟨hc1, ho1⟩ | ⟨hc1, ho1⟩
      · subst hc1; subst ho1; exact sibling_not_insub pos j ⟨hc_j, hjo⟩
      · subst hc1; subst ho1; exact sibling_not_insub pos j ⟨hjo, hc_j⟩
    have hio : o ≤ i := hoi.le
    have hij : i < j := by omega
    rw [siftDownF_nth_outside k n _ c i hnc_i, siftDownF_nth_outside k n _ c j hnc_j,
        nth_lswap_other heap (show i ≠ pos by omega) (fun h => hnc_i (h ▸ InSub.refl)),
        nth_lswap_other heap (show j ≠ pos by omega) (fun h => hnc_j (h ▸ InSub.refl))]
    exact pre i j (hosub.trans hoi) (by omega) hj hjlen'

theorem siftDownF_subHeap :
    ∀ (fuel : Nat) (heap : List β) (pos : Nat), heap.length - pos ≤ fuel →
      (∀ i j, InSub pos i → i ≠ pos → (j = 2 * i + 1 ∨ j = 2 * i + 2) → j < heap.length →
        k (nth heap i) ≤ k (nth heap j)) →
      subHeapAt k (siftDownF k fuel heap pos) pos := by
  intro fuel
  induction fuel with
  | zero =>
    intro heap pos hf pre i j hi hj hjlen
    simp only [siftDownF] at hjlen ⊢
    by_cases hip : i = pos
    · subst hip; exact absurd hjlen (by omega)
    · exact pre i j hi hip hj hjlen
  | succ n ih =>
    intro heap pos hf pre
    simp only [siftDownF]
    by_cases h1 : 2 * pos + 2 < heap.length
    · rw [if_pos h1]
      by_cases hc : k (nth heap (2 * pos + 2)) < k (nth heap (2 * pos + 1))
      · rw [if_pos hc]
        by_cases hs : k (nth heap (2 * pos + 2)) < k (nth heap pos)
        · rw [if_pos hs]
          exact siftDown_swap_subHeap k n ih heap pos (2 * pos + 2) (2 * pos + 1)
            (Or.inr ⟨rfl, rfl⟩) h1 (fun _ => hc.le) hs hf pre
        · rw [if_neg hs]
          intro i j hi hj hjlen
          by_cases hip : i = pos
          · subst hip
            rcases hj with rfl | rfl
            · omega
            · omega
          · exact pre i j hi hip hj hjlen
      · rw [if_neg hc]
        by_cases hs : k (nth heap (2 * pos + 1)) < k (nth heap pos)
        · rw [if_pos hs]
          exact siftDown_swap_subHeap k n ih heap pos (2 * pos + 1) (2 * pos + 2)
            (Or.inl ⟨rfl, rfl⟩) (by omega) (fun _ => by omega) hs hf pre
        · rw [if_neg hs]
          intro i j hi hj hjlen
          by_cases hip : i = pos
          · subst hip
            rcases hj with rfl | rfl
            · omega
            · omega
          · exact pre i j hi hip hj hjlen
    · rw [if_neg h1]
      by_cases h2 : 2 * pos + 2 = heap.length
      · rw [if_pos h2]
        by_cases hs : k (nth heap (2 * pos + 1)) < k (nth heap pos)
        · rw [if_pos hs]
          intro i j hi hj hjlen
          rw [length_lswap] at hjlen
          by_cases hip : i = pos
          · subst hip
            rcases hj with rfl | rfl
            · rw [nth_lswap_left heap (by omega) (by omega), nth_lswap_right heap (by omega)]
              exact hs.le
            · exact absurd hjlen (by omega)
          · have hi2 : 2 * pos + 1 ≤ i := by
              rcases hi.decomp with h | h | h
              · exact absurd h hip
              · exact h.le
              · have := h.le; omega
            exact absurd hjlen (by omega)
        · rw [if_neg hs]
          intro i j hi hj hjlen
          by_cases hip : i = pos
          · subst hip
            rcases hj with rfl | rfl
            · omega
            · exact absurd hjlen (by omega)
          · exact pre i j hi hip hj hjlen
      · rw [if_neg h2]
        intro i j hi hj hjlen
        by_cases hip : i = pos
        · subst hip; exact absurd hjlen (by omega)
        · exact pre i j hi hip hj hjlen

theorem siftDown_perm (heap : List β) (pos : Nat) : (siftDown k heap pos).Perm heap :=
  siftDownF_perm k heap.length heap pos

theorem siftDown_length (heap : List β) (pos : Nat) :
    (siftDown k heap pos).length = heap.length :=
  siftDownF_length k heap.length heap pos

theorem siftDown_nth_outside (heap : List β) (pos m : Nat) (hm : ¬InSub pos m) :
    nth (siftDown k heap pos) m = nth heap m :=
  siftDownF_nth_outside k heap.length heap pos m hm

theorem siftDown_subHeap (heap : List β) (pos : Nat)
    (pre : ∀ i j, InSub pos i → i ≠ pos → (j = 2 * i + 1 ∨ j = 2 * i + 2) → j < heap.length →
      k (nth heap i) ≤ k (nth heap j)) :
    subHeapAt k (siftDown k heap pos) pos :=
  siftDownF_subHeap k heap.length heap pos (by omega) pre

end SiftLemmas

/-! ## Lemmas about `heapify` and the drain loop -/

section HeapifyLemmas

variable {β : Type} [Inhabited β] (k : β → Nat)

theorem heapifyGo_perm : ∀ (n : Nat) (heap : List β), (heapifyGo k heap n).Perm heap := by
  intro n
  induction n with
  | zero => intro heap; exact List.Perm.refl _
  | succ m ih => intro heap; exact (ih _).trans (siftDown_perm k heap m)

theorem heapifyGo_subHeap :
    ∀ (n : Nat) (heap : List β), (∀ r, n ≤ r → subHeapAt k heap r) →
      ∀ r, subHeapAt k (heapifyGo k heap n) r := by
  intro n
  induction n with
  | zero => intro heap h r; exact h r (Nat.zero_le r)
  | succ m ih =>
    intro heap h
    apply ih
    intro r' hr'
    have pre : ∀ i j, InSub m i → i ≠ m → (j = 2 * i + 1 ∨ j = 2 * i + 2) → j < heap.length →
        k (nth heap i) ≤ k (nth heap j) := by
      intro i j hi hine hj hjlen
      have hmi : m < i := Nat.lt_of_le_of_ne hi.le fun h' => hine h'.symm
      exact h i (by omega) i j InSub.refl hj hjlen
    by_cases hrm : r' = m
    · rw [hrm]; exact siftDown_subHeap k heap m pre
    · intro i j hi hj hjlen
      rw [siftDown_length] at hjlen
      by_cases hmr : InSub m r'
      · exact siftDown_subHeap k heap m pre i j (hmr.trans hi) hj (by rwa [siftDown_length])
      · have hj' : InSub r' j := hi.child hj
        have hnmi : ¬InSub m i := fun hmi => hmr (hmi.nested hi (by omega))
        have hnmj : ¬InSub m j := fun hmj => hmr (hmj.nested hj' (by omega))
        rw [siftDown_nth_outside k heap m i hnmi, siftDown_nth_outside k heap m j hnmj]
        exact h r' (by omega) i j hi hj hjlen

theorem heapifyL_perm (heap : List β) : (heapifyL k heap).Perm heap :=
  heapifyGo_perm k (heap.length / 2) heap

theorem heapifyL_subHeap (heap : List β) : subHeapAt k (heapifyL k heap) 0 := by
  refine heapifyGo_subHeap k (heap.length / 2) heap ?_ 0
  intro r hr i j hi hj hjlen
  have hri := hi.le
  exact absurd hjlen (by omega)

end HeapifyLemmas

section RunSupport

theorem totalSize_congr {α : Type} {h1 h2 : List (HeadTail α)} (h : h1.Perm h2) :
    totalSize h1 = totalSize h2 :=
  (h.map _).sum_eq

theorem nth_cons_succ {β : Type} [Inhabited β] (a : β) (l : List β) (i : Nat) :
    nth (a :: l) (i + 1) = nth l i := by
  simp [nth]

theorem nth_cons_zero {β : Type} [Inhabited β] (a : β) (l : List β) : nth (a :: l) 0 = a := rfl

theorem nth_eq_getElem {β : Type} [Inhabited β] (l : List β) (i : Nat) (h : i < l.length) :
    nth l i = l[i] := by
  simp [nth, List.getD_eq_getElem?_getD, List.getElem?_eq_getElem h]

theorem swapRemoveFront_perm {β : Type} (x : β) (rest : List β) :
    (swapRemoveFront (x :: rest)).Perm rest := by
  rcases List.eq_nil_or_concat rest with rfl | ⟨ys, last, rfl⟩
  · simp [swapRemoveFront]
  · simp only [List.concat_eq_append, swapRemoveFront, List.getLast?_concat,
      List.dropLast_concat]
    exact (List.perm_append_singleton last ys).symm

theorem swapRemoveFront_length {β : Type} (x : β) (rest : List β) :
    (swapRemoveFront (x :: rest)).length = rest.length :=
  (swapRemoveFront_perm x rest).length_eq

theorem swapRemoveFront_nth {β : Type} [Inhabited β] (x : β) (rest : List β) (m : Nat)
    (h1 : 1 ≤ m) (h2 : m < (swapRemoveFront (x :: rest)).length) :
    nth (swapRemoveFront (x :: rest)) m = nth (x :: rest) m := by
  have h2' : m < rest.length := by rwa [swapRemoveFront_length] at h2
  rcases List.eq_nil_or_concat rest with rfl | ⟨ys, last, rfl⟩
  · simp only [List.length_nil] at h2'
    omega
  · simp only [List.concat_eq_append] at h2' ⊢
    simp only [swapRemoveFront, List.getLast?_concat, List.dropLast_concat]
    obtain ⟨m', rfl⟩ : ∃ m', m = m' + 1 := ⟨m - 1, by omega⟩
    rw [nth_cons_succ, nth_cons_succ]
    have hm' : m' < ys.length := by
      simp only [List.length_append, List.length_cons, List.length_nil] at h2'
      omega
    rw [show nth (ys ++ [last]) m' = nth ys m' from
      List.getD_append ys [last] default m' hm']

end RunSupport

section RunLemmas

variable {α : Type} [Inhabited α] (key : α → Nat)

theorem totalSize_cons_pos (ht : HeadTail α) (rest : List (HeadTail α)) :
    0 < totalSize (ht :: rest) := by
  simp only [totalSize, List.map_cons, List.sum_cons]
  omega

theorem kmergeRunF_perm :
    ∀ (fuel : Nat) (heap : List (HeadTail α)), totalSize heap ≤ fuel →
      (kmergeRunF key fuel heap).Perm (heap.map chainOf).flatten := by
  intro fuel
  induction fuel with
  | zero =>
    intro heap hf
    rcases heap with _ | ⟨ht0, rest⟩
    · simp [kmergeRunF]
    · exact absurd hf (by have := totalSize_cons_pos ht0 rest; omega)
  | succ n ih =>
    intro heap hf
    rcases heap with _ | ⟨⟨hd, tl⟩, rest⟩
    · simp [kmergeRunF]
    · rcases tl with _ | ⟨next, ts⟩
      · simp only [kmergeRunF]
        have hperm : (siftDown (htKey key) (swapRemoveFront ((⟨hd, []⟩ : HeadTail α) :: rest)) 0).Perm rest :=
          (siftDown_perm _ _ 0).trans (swapRemoveFront_perm _ rest)
        have hsz : totalSize (siftDown (htKey key) (swapRemoveFront ((⟨hd, []⟩ : HeadTail α) :: rest)) 0) ≤ n := by
          rw [totalSize_congr hperm]
          simp only [totalSize, List.map_cons, List.sum_cons, List.length_cons] at hf ⊢
          omega
        have h1 := ih _ hsz
        have h2 := (hperm.map chainOf).flatten
        refine (List.Perm.cons hd (h1.trans h2)).trans ?_
        simp [chainOf]
      · simp only [kmergeRunF]
        have hperm : (siftDown (htKey key) ((⟨next, ts⟩ : HeadTail α) :: rest) 0).Perm
            ((⟨next, ts⟩ : HeadTail α) :: rest) := siftDown_perm _ _ 0
        have hsz : totalSize (siftDown (htKey key) ((⟨next, ts⟩ : HeadTail α) :: rest) 0) ≤ n := by
          rw [totalSize_congr hperm]
          simp only [totalSize, List.map_cons, List.sum_cons, List.length_cons] at hf ⊢
          omega
        have h1 := ih _ hsz
        have h2 := (hperm.map chainOf).flatten
        refine (List.Perm.cons hd (h1.trans h2)).trans ?_
        simp [chainOf]

theorem kmergeRunF_mem (fuel : Nat) (heap : List (HeadTail α)) (hf : totalSize heap ≤ fuel) :
    ∀ y ∈ kmergeRunF key fuel heap, ∃ ht ∈ heap, y ∈ chainOf ht := by
  intro y hy
  have h := (kmergeRunF_perm key fuel heap hf).mem_iff.1 hy
  rw [List.mem_flatten] at h
  obtain ⟨l, hl, hyl⟩ := h
  rw [List.mem_map] at hl
  obtain ⟨ht, hht, rfl⟩ := hl
  exact ⟨ht, hht, hyl⟩

theorem kmergeRunF_sublist :
    ∀ (fuel : Nat) (heap : List (HeadTail α)), totalSize heap ≤ fuel →
      ∀ ht ∈ heap, (chainOf ht).Sublist (kmergeRunF key fuel heap) := by
  intro fuel
  induction fuel with
  | zero =>
    intro heap hf ht hht
    rcases heap with _ | ⟨ht0, rest⟩
    · simp at hht
    · exact absurd hf (by have := totalSize_cons_pos ht0 rest; omega)
  | succ n ih =>
    intro heap hf ht hht
    rcases heap with _ | ⟨⟨hd, tl⟩, rest⟩
    · simp at hht
    · rcases tl with _ | ⟨next, ts⟩
      · simp only [kmergeRunF]
        have hperm : (siftDown (htKey key) (swapRemoveFront ((⟨hd, []⟩ : HeadTail α) :: rest)) 0).Perm rest :=
          (siftDown_perm _ _ 0).trans (swapRemoveFront_perm _ rest)
        have hsz : totalSize (siftDown (htKey key) (swapRemoveFront ((⟨hd, []⟩ : HeadTail α) :: rest)) 0) ≤ n := by
          rw [totalSize_congr hperm]
          simp only [totalSize, List.map_cons, List.sum_cons, List.length_cons] at hf ⊢
          omega
        rcases List.mem_cons.1 hht with rfl | hmem
        · simp only [chainOf]
          exact List.Sublist.cons₂ hd (List.nil_sublist _)
        · have hin : ht ∈ siftDown (htKey key) (swapRemoveFront ((⟨hd, []⟩ : HeadTail α) :: rest)) 0 :=
            hperm.mem_iff.2 hmem
          exact (ih _ hsz ht hin).cons hd
      · simp only [kmergeRunF]
        have hperm : (siftDown (htKey key) ((⟨next, ts⟩ : HeadTail α) :: rest) 0).Perm
            ((⟨next, ts⟩ : HeadTail α) :: rest) := siftDown_perm _ _ 0
        have hsz : totalSize (siftDown (htKey key) ((⟨next, ts⟩ : HeadTail α) :: rest) 0) ≤ n := by
          rw [totalSize_congr hperm]
          simp only [totalSize, List.map_cons, List.sum_cons, List.length_cons] at hf ⊢
          omega
        rcases List.mem_cons.1 hht with rfl | hmem
        · simp only [chainOf]
          refine List.Sublist.cons₂ hd ?_
          have hin : (⟨next, ts⟩ : HeadTail α) ∈
              siftDown (htKey key) ((⟨next, ts⟩ : HeadTail α) :: rest) 0 :=
            hperm.mem_iff.2 (List.mem_cons_self _ _)
          exact ih _ hsz _ hin
        · have hin : ht ∈ siftDown (htKey key) ((⟨next, ts⟩ : HeadTail α) :: rest) 0 :=
            hperm.mem_iff.2 (List.mem_cons.2 (Or.inr hmem))
          exact (ih _ hsz ht hin).cons hd

theorem kmergeRunF_sorted :
    ∀ (fuel : Nat) (heap : List (HeadTail α)), totalSize heap ≤ fuel →
      subHeapAt (htKey key) heap 0 →
      (∀ ht ∈ heap, List.Pairwise (fun a b => key a ≤ key b) (chainOf ht)) →
      List.Pairwise (fun a b => key a ≤ key b) (kmergeRunF key fuel heap) := by
  intro fuel
  induction fuel with
  | zero =>
    intro heap hf _ _
    rcases heap with _ | ⟨ht0, rest⟩
    · simp [kmergeRunF]
    · exact absurd hf (by have := totalSize_cons_pos ht0 rest; omega)
  | succ n ih =>
    intro heap hf hH hC
    rcases heap with _ | ⟨⟨hd, tl⟩, rest⟩
    · simp [kmergeRunF]
    · have hmin : ∀ ht' ∈ rest, key hd ≤ key ht'.head := by
        intro ht' hht'
        obtain ⟨m, hm, he⟩ := List.getElem_of_mem hht'
        have hm1 : nth ((⟨hd, tl⟩ : HeadTail α) :: rest) (m + 1) = ht' := by
          rw [nth_cons_succ, nth_eq_getElem rest m hm, he]
        have h := root_le hH (m + 1) (insub_zero _) (by simp only [List.length_cons]; omega)
        rw [hm1] at h
        exact h
      rcases tl with _ | ⟨next, ts⟩
      · simp only [kmergeRunF]
        have hperm : (siftDown (htKey key) (swapRemoveFront ((⟨hd, []⟩ : HeadTail α) :: rest)) 0).Perm rest :=
          (siftDown_perm _ _ 0).trans (swapRemoveFront_perm _ rest)
        have hsz : totalSize (siftDown (htKey key) (swapRemoveFront ((⟨hd, []⟩ : HeadTail α) :: rest)) 0) ≤ n := by
          rw [totalSize_congr hperm]
          simp only [totalSize, List.map_cons, List.sum_cons, List.length_cons] at hf ⊢
          omega
        have hH' : subHeapAt (htKey key)
            (siftDown (htKey key) (swapRemoveFront ((⟨hd, []⟩ : HeadTail α) :: rest)) 0) 0 := by
          apply siftDown_subHeap
          intro i j hi hine hj hjlen
          obtain ⟨i', rfl⟩ : ∃ i', i = i' + 1 := ⟨i - 1, by omega⟩
          have hij : i' + 1 < j := by omega
          have hjr : j < rest.length := by rwa [swapRemoveFront_length] at hjlen
          rw [swapRemoveFront_nth _ rest (i' + 1) (by omega) (by omega),
              swapRemoveFront_nth _ rest j (by omega) hjlen]
          exact hH (i' + 1) j (insub_zero _) hj (by simp only [List.length_cons]; omega)
        have hC' : ∀ ht' ∈ siftDown (htKey key) (swapRemoveFront ((⟨hd, []⟩ : HeadTail α) :: rest)) 0,
            List.Pairwise (fun a b => key a ≤ key b) (chainOf ht') := by
          intro ht' hht'
          exact hC ht' (List.mem_cons.2 (Or.inr (hperm.mem_iff.1 hht')))
        refine List.pairwise_cons.2 ⟨?_, ih _ hsz hH' hC'⟩
        intro y hy
        obtain ⟨ht', hht', hy'⟩ := kmergeRunF_mem key n _ hsz y hy
        have hht'' : ht' ∈ rest := hperm.mem_iff.1 hht'
        have h1 : key hd ≤ key ht'.head := hmin ht' hht''
        have h2 : key ht'.head ≤ key y := by
          simp only [chainOf] at hy'
          rcases List.mem_cons.1 hy' with rfl | hy''
          · exact Nat.le_refl _
          · have hp := hC ht' (List.mem_cons.2 (Or.inr hht''))
            simp only [chainOf] at hp
            exact List.rel_of_pairwise_cons hp hy''
        omega
      · simp only [kmergeRunF]
        have hperm : (siftDown (htKey key) ((⟨next, ts⟩ : HeadTail α) :: rest) 0).Perm
            ((⟨next, ts⟩ : HeadTail α) :: rest) := siftDown_perm _ _ 0
        have hsz : totalSize (siftDown (htKey key) ((⟨next, ts⟩ : HeadTail α) :: rest) 0) ≤ n := by
          rw [totalSize_congr hperm]
          simp only [totalSize, List.map_cons, List.sum_cons, List.length_cons] at hf ⊢
          omega
        have hCroot : List.Pairwise (fun a b => key a ≤ key b) (hd :: next :: ts) := by
          have h := hC ⟨hd, next :: ts⟩ (List.mem_cons_self _ _)
          simpa [chainOf] using h
        have hH' : subHeapAt (htKey key)
            (siftDown (htKey key) ((⟨next, ts⟩ : HeadTail α) :: rest) 0) 0 := by
          apply siftDown_subHeap
          intro i j hi hine hj hjlen
          obtain ⟨i', rfl⟩ : ∃ i', i = i' + 1 := ⟨i - 1, by omega⟩
          obtain ⟨j', rfl⟩ : ∃ j', j = j' + 1 := ⟨j - 1, by omega⟩
          rw [nth_cons_succ, nth_cons_succ]
          have h := hH (i' + 1) (j' + 1) (insub_zero _) hj
            (by simp only [List.length_cons] at hjlen ⊢; omega)
          rw [nth_cons_succ, nth_cons_succ] at h
          exact h
        have hC' : ∀ ht' ∈ siftDown (htKey key) ((⟨next, ts⟩ : HeadTail α) :: rest) 0,
            List.Pairwise (fun a b => key a ≤ key b) (chainOf ht') := by
          intro ht' hht'
          rcases List.mem_cons.1 (hperm.mem_iff.1 hht') with rfl | hmem
          · simp only [chainOf]
            exact (List.pairwise_cons.1 hCroot).2
          · exact hC ht' (List.mem_cons.2 (Or.inr hmem))
        refine List.pairwise_cons.2 ⟨?_, ih _ hsz hH' hC'⟩
        intro y hy
        obtain ⟨ht', hht', hy'⟩ := kmergeRunF_mem key n _ hsz y hy
        rcases List.mem_cons.1 (hperm.mem_iff.1 hht') with rfl | hmem
        · simp only [chainOf] at hy'
          exact List.rel_of_pairwise_cons hCroot hy'
        · have h1 : key hd ≤ key ht'.head := hmin ht' hmem
          have h2 : key ht'.head ≤ key y := by
            simp only [chainOf] at hy'
            rcases List.mem_cons.1 hy' with rfl | hy''
            · exact Nat.le_refl _
            · have hp := hC ht' (List.mem_cons.2 (Or.inr hmem))
              simp only [chainOf] at hp
              exact List.rel_of_pairwise_cons hp hy''
          omega

end RunLemmas

section MergeAssembly

theorem chainOf_filterMap_headTail {α : Type} (L : List (List α)) :
    ((L.filterMap headTailOf).map chainOf).flatten = L.flatten := by
  induction L with
  | nil => rfl
  | cons l ls ih =>
    rcases l with _ | ⟨x, xs⟩
    · simpa [headTailOf, List.filterMap_cons] using ih
    · simp [headTailOf, List.filterMap_cons, chainOf, List.flatten_cons, ih]

theorem kmergeBy_perm {α : Type} [Inhabited α] (key : α → Nat) (lists : List (List α)) :
    (kmergeBy key lists).Perm lists.flatten := by
  unfold kmergeBy kmergeRun
  refine (kmergeRunF_perm key _ _ (Nat.le_refl _)).trans ?_
  refine (((heapifyL_perm _ _).map chainOf).flatten).trans ?_
  rw [chainOf_filterMap_headTail]

theorem kmergeBy_sorted {α : Type} [Inhabited α] (key : α → Nat) (lists : List (List α))
    (hC : ∀ l ∈ lists, List.Pairwise (fun a b => key a ≤ key b) l) :
    List.Pairwise (fun a b => key a ≤ key b) (kmergeBy key lists) := by
  unfold kmergeBy kmergeRun
  apply kmergeRunF_sorted key _ _ (Nat.le_refl _)
  · exact heapifyL_subHeap _ _
  · intro ht hht
    have hm : ht ∈ lists.filterMap headTailOf := (heapifyL_perm _ _).mem_iff.1 hht
    rw [List.mem_filterMap] at hm
    obtain ⟨l, hl, he⟩ := hm
    rcases l with _ | ⟨x, xs⟩
    · simp [headTailOf] at he
    · simp only [headTailOf] at he
      obtain rfl : (⟨x, xs⟩ : HeadTail α) = ht := Option.some.inj he
      simpa [chainOf] using hC _ hl

theorem kmergeBy_sublist {α : Type} [Inhabited α] (key : α → Nat) (lists : List (List α))
    (l : List α) (hl : l ∈ lists) : l.Sublist (kmergeBy key lists) := by
  rcases l with _ | ⟨x, xs⟩
  · exact List.nil_sublist _
  · unfold kmergeBy kmergeRun
    have hmem : (⟨x, xs⟩ : HeadTail α) ∈ lists.filterMap headTailOf := by
      rw [List.mem_filterMap]
      exact ⟨x :: xs, hl, rfl⟩
    have hmem2 : (⟨x, xs⟩ : HeadTail α) ∈ heapifyL (htKey key) (lists.filterMap headTailOf) :=
      (heapifyL_perm _ _).mem_iff.2 hmem
    have h := kmergeRunF_sublist key _ _ (Nat.le_refl _) _ hmem2
    simpa [chainOf] using h

theorem pairwise_fst_le_enumFrom {γ : Type} :
    ∀ (l : List γ) (n : Nat), List.Pairwise (fun a b => a.1 ≤ b.1) (List.enumFrom n l) := by
  intro l
  induction l with
  | nil => intro n; simp
  | cons x xs ih =>
    intro n
    rw [List.enumFrom_cons]
    refine List.pairwise_cons.2 ⟨?_, ih (n + 1)⟩
    rintro ⟨i, a⟩ hp
    have h := (List.mem_enumFrom hp).1
    show n ≤ i
    omega

theorem pairwise_fst_le_enum {γ : Type} (l : List γ) :
    List.Pairwise (fun a b => a.1 ≤ b.1) l.enum :=
  pairwise_fst_le_enumFrom l 0

theorem kmergeRanked_perm {γ : Type} [Inhabited γ] (pages : List (List γ)) :
    (kmergeRanked pages).Perm (pages.map List.enum).flatten :=
  kmergeBy_perm Prod.fst (pages.map List.enum)

theorem kmergeRanked_sorted {γ : Type} [Inhabited γ] (pages : List (List γ)) :
    List.Pairwise (fun a b => a.1 ≤ b.1) (kmergeRanked pages) := by
  apply kmergeBy_sorted
  intro l hl
  rw [List.mem_map] at hl
  obtain ⟨p, _, rfl⟩ := hl
  exact pairwise_fst_le_enum p

theorem kmergeRanked_sublist {γ : Type} [Inhabited γ] (pages : List (List γ))
    (p : List γ) (hp : p ∈ pages) : p.enum.Sublist (kmergeRanked pages) :=
  kmergeBy_sublist Prod.fst (pages.map List.enum) p.enum
    (List.mem_map.2 ⟨p, hp, rfl⟩)

end MergeAssembly

section UniqueLemmas

variable {α κ : Type} [DecidableEq κ] (key : α → κ)

theorem uniqueByKeyGo_sublist :
    ∀ (l : List α) (seen : List κ), (uniqueByKeyGo key seen l).Sublist l := by
  intro l
  induction l with
  | nil => intro seen; simp [uniqueByKeyGo]
  | cons x xs ih =>
    intro seen
    simp only [uniqueByKeyGo]
    split
    · exact (ih seen).cons x
    · exact (ih _).cons₂ x

theorem uniqueByKey_sublist (l : List α) : (uniqueByKey key l).Sublist l :=
  uniqueByKeyGo_sublist key l []

theorem uniqueByKeyGo_filter :
    ∀ (l : List α) (seen : List κ) (v : κ),
      (uniqueByKeyGo key seen l).filter (fun y => decide (key y = v)) =
        if v ∈ seen then [] else (l.filter (fun y => decide (key y = v))).take 1 := by
  intro l
  induction l with
  | nil => intro seen v; simp [uniqueByKeyGo]
  | cons x xs ih =>
    intro seen v
    simp only [uniqueByKeyGo]
    by_cases hx : key x ∈ seen
    · rw [if_pos hx, ih]
      by_cases hv : v ∈ seen
      · rw [if_pos hv, if_pos hv]
      · rw [if_neg hv, if_neg hv]
        have hxv : ¬(key x = v) := fun h => hv (h ▸ hx)
        rw [List.filter_cons]
        simp [hxv]
    · rw [if_neg hx]
      rw [List.filter_cons, List.filter_cons]
      by_cases hxv : key x = v
      · have hv : v ∉ seen := fun h => hx (hxv ▸ h)
        rw [if_neg hv, ih]
        rw [if_pos (List.mem_cons.2 (Or.inl hxv.symm))]
        simp [hxv]
      · rw [ih]
        have hvmem : (v ∈ key x :: seen) ↔ (v ∈ seen) := by
          rw [List.mem_cons]
          constructor
          · rintro (h | h)
            · exact absurd h.symm hxv
            · exact h
          · exact Or.inr
        by_cases hv : v ∈ seen
        · rw [if_pos (hvmem.2 hv), if_pos hv]
          simp [hxv]
        · rw [if_neg (fun h => hv (hvmem.1 h)), if_neg hv]
          simp [hxv]

theorem uniqueByKey_filter (l : List α) (v : κ) :
    (uniqueByKey key l).filter (fun y => decide (key y = v)) =
      (l.filter (fun y => decide (key y = v))).take 1 := by
  unfold uniqueByKey
  rw [uniqueByKeyGo_filter]
  simp

end UniqueLemmas

/-! ## Claims about `Year::from_str` (C9, C10) -/

/-- C9: every string that `Year::from_str` parses into a range with both
endpoints present yields a range with `start ≤ end`; inverted user input is
silently swapped rather than rejected. -/
theorem claim_c9_range_ordered (cs : List Char) (a b : Nat)
    (h : Legacy.Year.from_str cs = some (.Range (some a) (some b))) : a ≤ b := by
  unfold Legacy.Year.from_str at h
  by_cases h1 : Legacy.startsWithSep cs
  · rw [if_pos h1] at h
    cases hp : Legacy.parseU16 (cs.drop 1) <;> rw [hp] at h <;> simp at h
  · rw [if_neg h1] at h
    by_cases h2 : Legacy.endsWithSep cs
    · rw [if_pos h2] at h
      cases hp : Legacy.parseU16 cs.dropLast <;> rw [hp] at h <;> simp at h
    · rw [if_neg h2] at h
      cases hsp : Legacy.splitOnceSep cs with
      | none =>
        rw [hsp] at h
        cases hp : Legacy.parseU16 cs <;> rw [hp] at h <;> simp at h
      | some lr =>
        rw [hsp] at h
        rcases lr with ⟨l, r⟩
        dsimp only at h
        cases hpl : Legacy.parseU16 l <;> rw [hpl] at h
        · simp at h
        · rename_i s
          cases hpr : Legacy.parseU16 r <;> rw [hpr] at h
          · simp at h
          · rename_i e
            dsimp only at h
            by_cases hse : s > e
            · rw [if_pos hse] at h
              simp only [Option.some.injEq, Legacy.Year.Range.injEq] at h
              omega
            · rw [if_neg hse] at h
              simp only [Option.some.injEq, Legacy.Year.Range.injEq] at h
              omega

/-- C9 witness: the inverted input "2010-1980" parses to the swapped range
1980..=2010, whose endpoints the theorem orders. -/
theorem claim_c9_witness :
    Legacy.Year.from_str ("2010-1980".toList) =
      some (.Range (some 1980) (some 2010)) ∧ (1980 : Nat) ≤ 2010 :=
  ⟨by decide, claim_c9_range_ordered ("2010-1980".toList) 1980 2010 (by decide)⟩

/-- C10: a successful `Year::from_str` never produces a range with both ends
absent, and the separator-only input "-" fails with a parse error, so every
parsed `Year` gives `Year::contains` a real constraint. -/
theorem claim_c10_parse_never_unbounded :
    (∀ (cs : List Char) (y : Legacy.Year), Legacy.Year.from_str cs = some y →
      y ≠ Legacy.Year.Range none none) ∧
    Legacy.Year.from_str ['-'] = none := by
  refine ⟨?_, by decide⟩
  intro cs y h
  unfold Legacy.Year.from_str at h
  by_cases h1 : Legacy.startsWithSep cs
  · rw [if_pos h1] at h
    cases hp : Legacy.parseU16 (cs.drop 1) <;> rw [hp] at h <;> simp at h
    rw [← h]
    simp
  · rw [if_neg h1] at h
    by_cases h2 : Legacy.endsWithSep cs
    · rw [if_pos h2] at h
      cases hp : Legacy.parseU16 cs.dropLast <;> rw [hp] at h <;> simp at h
      rw [← h]
      simp
    · rw [if_neg h2] at h
      cases hsp : Legacy.splitOnceSep cs with
      | none =>
        rw [hsp] at h
        cases hp : Legacy.parseU16 cs <;> rw [hp] at h <;> simp at h
        rw [← h]
        simp
      | some lr =>
        rw [hsp] at h
        rcases lr with ⟨l, r⟩
        dsimp only at h
        cases hpl : Legacy.parseU16 l <;> rw [hpl] at h
        · simp at h
        · cases hpr : Legacy.parseU16 r <;> rw [hpr] at h
          · simp at h
          · rename_i s e
            dsimp only at h
            by_cases hse : s > e
            · rw [if_pos hse] at h
              simp only [Option.some.injEq] at h
              rw [← h]
              simp
            · rw [if_neg hse] at h
              simp only [Option.some.injEq] at h
              rw [← h]
              simp

/-- C10 witness: a plain year parses and is not the fully-open range. -/
theorem claim_c10_witness :
    Legacy.Year.from_str ("1999".toList) = some (.Single 1999) ∧
    Legacy.Year.Single 1999 ≠ Legacy.Year.Range none none :=
  ⟨by decide,
    claim_c10_parse_never_unbounded.1 ("1999".toList) (.Single 1999) (by decide)⟩

/-! ## Claims about `Filters::allows` (C5) -/


theorem Legacy.genre_matches_iff (f : Legacy.Filters) (sr : Legacy.SearchResult) :
    (f.genres.isEmpty ||
      f.genres.any fun g => Legacy.eqIgnoreAsciiCase sr.media_type.as_str g.as_str) = true ↔
    Legacy.mediaTypeIntersects f sr := by
  rw [Bool.or_eq_true, List.isEmpty_iff, List.any_eq_true]
  exact Iff.rfl

theorem Legacy.contains_zero_none_start (e : Option Nat) :
    (Legacy.Year.Range none e).contains 0 = true := by
  cases e <;> simp [Legacy.Year.contains]

theorem Legacy.contains_of_none_end (s : Option Nat) (y : Nat)
    (h : ∀ v, s = some v → v ≤ y) : (Legacy.Year.Range s none).contains y = true := by
  cases s with
  | none => simp [Legacy.Year.contains]
  | some v => simp [Legacy.Year.contains]; exact h v rfl

/-- C5 (amended): `Filters::allows` is sound for the any-overlap reading --
an accepted candidate's media type intersects the allowed set and (for
well-formed candidate ranges) its year overlaps the filter range -- and it
is complete whenever the year filter is absent, the year filter is a single
year, or the candidate's year is a single year.  For range-vs-range
comparisons the code only tests the candidate's endpoints for membership,
so overlap does not imply acceptance there (see the counterexample). -/
theorem claim_c5_amended (f : Legacy.Filters) (sr : Legacy.SearchResult) :
    (Legacy.Year.wf sr.year → f.allows sr = true →
      Legacy.mediaTypeIntersects f sr ∧ Legacy.yearOverlapOk f sr) ∧
    ((f.years = none ∨ (∃ a, f.years = some (Legacy.Year.Single a)) ∨
        (∃ b, sr.year = Legacy.Year.Single b)) →
      Legacy.mediaTypeIntersects f sr ∧ Legacy.yearOverlapOk f sr → f.allows sr = true) := by
  obtain ⟨genres, years⟩ := f
  obtain ⟨title, iid, mt, sry⟩ := sr
  constructor
  · intro hwf hallow
    simp only [Legacy.Filters.allows, Bool.and_eq_true] at hallow
    obtain ⟨hyear, hgenre⟩ := hallow
    refine ⟨(Legacy.genre_matches_iff ⟨genres, years⟩ ⟨title, iid, mt, sry⟩).1 hgenre, ?_⟩
    unfold Legacy.yearOverlapOk
    rcases years with _ | fy
    · trivial
    · dsimp only at hyear ⊢
      split at hyear
      · rename_i a b
        have hab : a = b := by simpa using hyear
        subst hab
        exact ⟨a, by simp [Legacy.Year.contains], by simp [Legacy.Year.contains]⟩
      · rename_i e1 e2
        exact ⟨0, Legacy.contains_zero_none_start e1, Legacy.contains_zero_none_start e2⟩
      · rename_i s1 s2 hne
        refine ⟨max (s1.getD 0) (s2.getD 0), Legacy.contains_of_none_end _ _ ?_,
          Legacy.contains_of_none_end _ _ ?_⟩
        · intro v hv
          simp [hv]
        · intro v hv
          simp [hv]
      · rename_i s1 e1 s e hne1 hne2
        rw [Bool.or_eq_true] at hyear
        rcases hyear with hy | hy
        · cases s with
          | none => simp at hy
          | some v =>
            dsimp only at hy
            refine ⟨v, hy, ?_⟩
            cases e with
            | none => simp [Legacy.Year.contains]
            | some e2 =>
              simp only [Legacy.Year.wf] at hwf
              simp only [Legacy.Year.contains, Bool.and_eq_true, decide_eq_true_eq]
              omega
        · cases e with
          | none => simp at hy
          | some v =>
            dsimp only at hy
            refine ⟨v, hy, ?_⟩
            cases s with
            | none => simp [Legacy.Year.contains]
            | some s2 =>
              simp only [Legacy.Year.wf] at hwf
              simp only [Legacy.Year.contains, Bool.and_eq_true, decide_eq_true_eq]
              omega
      · rename_i a s e
        exact ⟨a, by simp [Legacy.Year.contains], hyear⟩
      · rename_i s1 e1 b
        exact ⟨b, hyear, by simp [Legacy.Year.contains]⟩
  · intro hsingle hok
    obtain ⟨hmt, hov⟩ := hok
    simp only [Legacy.Filters.allows, Bool.and_eq_true]
    refine ⟨?_, (Legacy.genre_matches_iff ⟨genres, years⟩ ⟨title, iid, mt, sry⟩).2 hmt⟩
    unfold Legacy.yearOverlapOk at hov
    rcases years with _ | fy
    · rfl
    · dsimp only at hov ⊢
      split
      · rename_i a b
        obtain ⟨y, h1, h2⟩ := hov
        simp only [Legacy.Year.contains, beq_iff_eq] at h1 h2
        simp [h1, h2]
      · rfl
      · rfl
      · rename_i s1 e1 s e hne1 hne2
        rcases hsingle with h | ⟨a, h⟩ | ⟨b, h⟩ <;> simp at h
      · rename_i a s e
        obtain ⟨y, h1, h2⟩ := hov
        simp only [Legacy.Year.contains, beq_iff_eq] at h1
        rw [← h1] at h2
        exact h2
      · rename_i s1 e1 b
        obtain ⟨y, h1, h2⟩ := hov
        simp only [Legacy.Year.contains, beq_iff_eq] at h2
        rw [← h2] at h1
        exact h1

/-- C5 counterexample: a candidate whose year range strictly contains the
filter's bounded range overlaps it (1995 lies in both) and its media type
is allowed, yet `Filters::allows` rejects it, refuting the claimed
"any overlap" equivalence. -/
theorem claim_c5_counterexample :
    Legacy.Filters.allows ⟨[], some (.Range (some 1990) (some 2000))⟩
      ⟨"t", "tt0000001", .Movie, .Range (some 1980) (some 2010)⟩ = false ∧
    Legacy.mediaTypeIntersects ⟨[], some (.Range (some 1990) (some 2000))⟩
      ⟨"t", "tt0000001", .Movie, .Range (some 1980) (some 2010)⟩ ∧
    Legacy.yearsOverlap (.Range (some 1990) (some 2000)) (.Range (some 1980) (some 2010)) ∧
    Legacy.Year.wf (Legacy.Year.Range (some 1980) (some 2010)) :=
  ⟨by decide, Or.inl rfl, ⟨1995, by decide, by decide⟩, by show (1980 : Nat) ≤ 2010; omega⟩

/-- C5 witness: the amended theorem applied to a concrete accepted
candidate with a single-year filter. -/
theorem claim_c5_witness :
    Legacy.Year.wf (Legacy.Year.Single 1995) ∧
    Legacy.Filters.allows ⟨[], some (.Single 1995)⟩
      ⟨"t", "tt0000002", .Movie, .Single 1995⟩ = true ∧
    (Legacy.mediaTypeIntersects ⟨[], some (.Single 1995)⟩
        ⟨"t", "tt0000002", .Movie, .Single 1995⟩ ∧
      Legacy.yearOverlapOk ⟨[], some (.Single 1995)⟩
        ⟨"t", "tt0000002", .Movie, .Single 1995⟩) :=
  ⟨trivial, by decide,
    (claim_c5_amended ⟨[], some (.Single 1995)⟩
      ⟨"t", "tt0000002", .Movie, .Single 1995⟩).1 trivial (by decide)⟩

/-! ## Claims about the merge and deduplication (C1, C6) -/

/-- C1 (amended): the merged, rank-keyed output of `kmerge_by(|a, b| a.0 < b.0)`
is a permutation of the enumerated pages' entries, globally nondecreasing in
intra-page rank, and preserves each page's internal order; the order among
entries of equal rank is NOT the page-arrival order (see the counterexample). -/
theorem claim_c1_rank_merge_amended {γ : Type} [Inhabited γ]
    (pages : List (List γ)) :
    (kmergeRanked pages).Perm (pages.map List.enum).flatten ∧
    List.Pairwise (fun a b => a.1 ≤ b.1) (kmergeRanked pages) ∧
    ∀ p ∈ pages, p.enum.Sublist (kmergeRanked pages) :=
  ⟨kmergeRanked_perm pages, kmergeRanked_sorted pages,
    fun p hp => kmergeRanked_sublist pages p hp⟩

/-- C1 counterexample: with pages `[10, 11, 12]` and `[20, 21]`, both rank-0
entries come first in page order, but the rank-1 entry of the second page
precedes the rank-1 entry of the first page, refuting tie stability. -/
theorem claim_c1_counterexample :
    kmergeRanked [[10, 11, 12], [20, 21]] =
      [(0, 10), (0, 20), (1, 21), (1, 11), (2, 12)] ∧
    List.indexOf ((1, 21) : Nat × Nat) (kmergeRanked [[10, 11, 12], [20, 21]]) <
      List.indexOf ((1, 11) : Nat × Nat) (kmergeRanked [[10, 11, 12], [20, 21]]) := by
  decide

/-- C6: if a catalogue ID occurs at least twice in the merged list, exactly one
entry with that ID survives `unique_by`, it is the first occurrence (the prefix
of length 1 of the merge's entries with that ID), and the deduplicated list is
a sublist of the merge, so all other entries keep their relative order. -/
theorem claim_c6_dedup_first (resultSets : List (List Omdb.SearchResult))
    (tid : String)
    (hdup : 2 ≤ ((Omdb.mergeEntries resultSets).filter
        (fun sr => decide (sr.imdb_id = tid))).length) :
    (uniqueByKey (fun sr => sr.imdb_id) (Omdb.mergeEntries resultSets)).filter
        (fun sr => decide (sr.imdb_id = tid)) =
      ((Omdb.mergeEntries resultSets).filter
        (fun sr => decide (sr.imdb_id = tid))).take 1 ∧
    ((uniqueByKey (fun sr => sr.imdb_id) (Omdb.mergeEntries resultSets)).filter
        (fun sr => decide (sr.imdb_id = tid))).length = 1 ∧
    (uniqueByKey (fun sr => sr.imdb_id)
        (Omdb.mergeEntries resultSets)).Sublist (Omdb.mergeEntries resultSets) := by
  have hfil := uniqueByKey_filter (fun sr : Omdb.SearchResult => sr.imdb_id)
    (Omdb.mergeEntries resultSets) tid
  refine ⟨hfil, ?_, uniqueByKey_sublist _ _⟩
  rw [hfil, List.length_take]
  omega

/-- C6 witness: two pages sharing imdb_id "tt0000001" — the duplicate occurs
twice in the merge and exactly once after deduplication. -/
theorem claim_c6_witness :
    2 ≤ ((Omdb.mergeEntries Omdb.c6sets).filter
        (fun sr => decide (sr.imdb_id = "tt0000001"))).length ∧
    ((uniqueByKey (fun sr => sr.imdb_id) (Omdb.mergeEntries Omdb.c6sets)).filter
        (fun sr => decide (sr.imdb_id = "tt0000001"))).length = 1 :=
  ⟨by decide, (claim_c6_dedup_first Omdb.c6sets "tt0000001" (by decide)).2.1⟩

/-! ## Claims about the fan-out loop (C2, C3, C8) -/

theorem getResultsLoop_fatal_reached
    (send : Omdb.FilterParameters → Except Omdb.RequestError Omdb.SearchResults)
    (p : Omdb.FilterParameters) (post : List Omdb.FilterParameters)
    (e : Omdb.RequestError)
    (hp : send p = .error e) (hnf : Omdb.isNotFound e = false)
    (hf : e.is_fatal = true) :
    ∀ (pre : List Omdb.FilterParameters),
      (∀ q ∈ pre, ∀ e', send q = .error e' →
          Omdb.isNotFound e' = true ∨ e'.is_fatal = false) →
      ∀ (acc : List (List Omdb.SearchResult)) (nre : Option Omdb.RequestError)
        (rt : Nat),
        Omdb.getResultsLoop send (pre ++ p :: post) acc nre rt =
          Omdb.GetResultsOutcome.err e := by
  intro pre
  induction pre with
  | nil =>
    intro _ acc nre rt
    simp [Omdb.getResultsLoop, hp, hnf, hf]
  | cons q qs ih =>
    intro hpre acc nre rt
    rw [List.cons_append]
    cases hsq : send q with
    | ok results =>
      simp only [Omdb.getResultsLoop, hsq]
      exact ih (fun r hr => hpre r (List.mem_cons_of_mem q hr)) _ _ _
    | error e' =>
      have h := hpre q (List.mem_cons_self q qs) e' hsq
      rcases h with h | h
      · simp only [Omdb.getResultsLoop, hsq, h, if_true]
        exact ih (fun r hr => hpre r (List.mem_cons_of_mem q hr)) _ _ _
      · by_cases hnf' : Omdb.isNotFound e' = true
        · simp only [Omdb.getResultsLoop, hsq, hnf', if_true]
          exact ih (fun r hr => hpre r (List.mem_cons_of_mem q hr)) _ _ _
        · simp only [Omdb.getResultsLoop, hsq, h]
          rw [if_neg hnf', if_neg Bool.false_ne_true]
          exact ih (fun r hr => hpre r (List.mem_cons_of_mem q hr)) _ _ _

/-- C2: if some parameter set's request fails with a fatal, non-"not found"
error and every earlier parameter set either succeeded or failed recoverably,
`get_results` returns exactly that fatal error: no results from any other
parameter set, before or after the failing one, are reflected. -/
theorem claim_c2_fatal_short_circuit
    (send : Omdb.FilterParameters → Except Omdb.RequestError Omdb.SearchResults)
    (pre post : List Omdb.FilterParameters) (p : Omdb.FilterParameters)
    (e : Omdb.RequestError)
    (hp : send p = .error e) (hnf : Omdb.isNotFound e = false)
    (hf : e.is_fatal = true)
    (hpre : ∀ q ∈ pre, ∀ e', send q = .error e' →
        Omdb.isNotFound e' = true ∨ e'.is_fatal = false) :
    Omdb.getResults send (pre ++ p :: post) = Omdb.GetResultsOutcome.err e :=
  getResultsLoop_fatal_reached send p post e hp hnf hf pre hpre [] none 0

/-- C2 witness: of three parameter sets, the second fails with a transport
error; `get_results` returns that error even though the first and third would
succeed with a result. -/
theorem claim_c2_witness :
    Omdb.getResults Omdb.c2send
        [⟨none, some 1⟩, ⟨none, some 2⟩, ⟨none, some 3⟩] =
      Omdb.GetResultsOutcome.err (.Web "connection refused") :=
  claim_c2_fatal_short_circuit Omdb.c2send [⟨none, some 1⟩] [⟨none, some 3⟩]
    ⟨none, some 2⟩ (.Web "connection refused") rfl rfl rfl
    (by
      intro q hq e' he'
      rw [List.mem_singleton] at hq
      subst hq
      simp [Omdb.c2send] at he')

/-- C3: refutation of the all-recoverable aggregate-failure claim — when the
only request fails with a recoverable deserialisation error (and no request
reports the "not found" outcome), `get_results` reaches
`no_results_err.unwrap()` with `None` and panics (modelled `.crashed`) instead
of returning an aggregate failure referencing the last recoverable error. -/
theorem claim_c3_all_recoverable_crash :
    (Omdb.RequestError.Deserialisation "missing field Search" "raw body").is_fatal
        = false ∧
    Omdb.isNotFound (.Deserialisation "missing field Search" "raw body") = false ∧
    Omdb.getResults
        (fun _ => .error (.Deserialisation "missing field Search" "raw body"))
        [⟨none, none⟩] = Omdb.GetResultsOutcome.crashed :=
  ⟨rfl, rfl, rfl⟩

/-- C8: the `Web` variant is classified fatal by `is_fatal`, and `get_results`
aborts with it when a request fails with a transport error. -/
theorem claim_c8_web_fatal_aborts (msg : String)
    (send : Omdb.FilterParameters → Except Omdb.RequestError Omdb.SearchResults)
    (p : Omdb.FilterParameters) (rest : List Omdb.FilterParameters)
    (hp : send p = .error (.Web msg)) :
    (Omdb.RequestError.Web msg).is_fatal = true ∧
    Omdb.getResults send (p :: rest) = Omdb.GetResultsOutcome.err (.Web msg) := by
  refine ⟨rfl, ?_⟩
  simp [Omdb.getResults, Omdb.getResultsLoop, hp, Omdb.isNotFound,
    Omdb.RequestError.is_fatal]

/-- C8 witness: a request function that always fails with a transport error
makes `get_results` abort with that error. -/
theorem claim_c8_witness :
    Omdb.getResults (fun _ => .error (.Web "timeout")) [⟨none, none⟩] =
      Omdb.GetResultsOutcome.err (.Web "timeout") :=
  (claim_c8_web_fatal_aborts "timeout" (fun _ => .error (.Web "timeout"))
    ⟨none, none⟩ [] rfl).2

/-! ## Claims about the generator (C4, C7) -/

theorem str_iter_length (t : Omdb.MediaType) :
    t.str_iter.length = t.count := by
  obtain ⟨m, s, g⟩ := t
  cases m <;> cases s <;> cases g <;> rfl

theorem length_cartesianProduct {γ δ : Type} (l₁ : List γ) (l₂ : List δ) :
    (Omdb.cartesianProduct l₁ l₂).length = l₁.length * l₂.length := by
  induction l₁ with
  | nil => simp [Omdb.cartesianProduct]
  | cons a l ih =>
    simp only [Omdb.cartesianProduct, List.flatMap_cons, List.length_append,
      List.length_map, List.length_cons] at ih ⊢
    rw [ih]
    ring

/-- C4 (amended): the generator's length is `min(combinations(), B)` whenever
the media-type dimension is unconstrained or the year dimension is
constrained — in particular, with no filters it emits the single empty
`FilterParameters` — but in the media-type-only branch it emits all `k`
selected types without truncating to `B` (see the counterexample). -/
theorem claim_c4_amended (f : Omdb.Filters) (B : Nat) (hB : 1 ≤ B) :
    ((f.types = Omdb.MediaType.ALL ∨ f.years ≠ none) →
      (Omdb.newParams f B).length = min f.combinations B) ∧
    (f.types ≠ Omdb.MediaType.ALL → f.years = none →
      (Omdb.newParams f B).length = f.types.count) ∧
    (f.types = Omdb.MediaType.ALL → f.years = none →
      Omdb.newParams f B = [⟨none, none⟩]) := by
  obtain ⟨t, ys⟩ := f
  by_cases ht : t = Omdb.MediaType.ALL
  · subst ht
    cases ys with
    | none =>
      refine ⟨fun _ => ?_, fun h _ => absurd rfl h, fun _ _ => rfl⟩
      simp [Omdb.newParams, Omdb.Filters.combinations]
      omega
    | some y =>
      refine ⟨fun _ => ?_, fun h _ => absurd rfl h, fun _ h => nomatch h⟩
      simp [Omdb.newParams, Omdb.Filters.combinations]
      omega
  · cases ys with
    | none =>
      refine ⟨fun h => ?_, fun _ _ => ?_, fun h _ => absurd h ht⟩
      · rcases h with h | h
        · exact absurd h ht
        · exact absurd rfl h
      · simp only [Omdb.newParams, if_neg ht, List.length_map]
        exact str_iter_length t
    | some y =>
      refine ⟨fun _ => ?_, fun _ h => by simp at h, fun h _ => absurd h ht⟩
      simp only [Omdb.newParams, if_neg ht, List.length_map, List.length_take,
        length_cartesianProduct, str_iter_length, Omdb.Filters.combinations]
      rw [Nat.mul_comm]
      omega

/-- C4 counterexample: with media types {movie, series} and no year filter,
a budget of `B = 1` is ignored — the generator emits 2 parameter sets while
`min(combinations(), B) = 1`. -/
theorem claim_c4_counterexample :
    (Omdb.newParams ⟨⟨true, true, false⟩, none⟩ 1).length ≠
      min (Omdb.Filters.combinations ⟨⟨true, true, false⟩, none⟩) 1 := by
  decide

/-- C4 witness: the amended length formula at a year-and-type-constrained
filter ({movie} × 1990..=1992, budget 10). -/
theorem claim_c4_witness :
    (Omdb.newParams ⟨⟨true, false, false⟩, some ⟨1990, 1992⟩⟩ 10).length =
      min (Omdb.Filters.combinations ⟨⟨true, false, false⟩, some ⟨1990, 1992⟩⟩) 10 :=
  (claim_c4_amended ⟨⟨true, false, false⟩, some ⟨1990, 1992⟩⟩ 10 (by decide)).1
    (Or.inr (by decide))

theorem str_iter_canonical (t : Omdb.MediaType) :
    t.str_iter = Omdb.canonicalTypeStrs t := by
  obtain ⟨m, s, g⟩ := t
  cases m <;> cases s <;> cases g <;> rfl

/-- C7: with both dimensions constrained, the generator is the Cartesian
product with years ascending as the outer loop and the media types in the
canonical order movie, series, game as the inner loop, truncated to `B`. -/
theorem claim_c7_cartesian_order (f : Omdb.Filters) (B : Nat) (y : Omdb.Year)
    (ht : f.types ≠ Omdb.MediaType.ALL) (hy : f.years = some y) :
    Omdb.newParams f B =
      ((List.range' y.start (y.stop + 1 - y.start)).flatMap fun yr =>
        (Omdb.canonicalTypeStrs f.types).map fun t =>
          (⟨some t, some yr⟩ : Omdb.FilterParameters)).take B := by
  obtain ⟨ts, ys⟩ := f
  subst hy
  simp only [Omdb.newParams, if_neg ht, ← str_iter_canonical,
    Omdb.cartesianProduct, List.map_take, List.map_flatMap, List.map_map]
  rfl

/-- C7 witness: {movie, series} × 1990..=1991 with budget 10 — the theorem
applied at a concrete filter. -/
theorem claim_c7_witness :
    Omdb.newParams ⟨⟨true, true, false⟩, some ⟨1990, 1991⟩⟩ 10 =
      ((List.range' 1990 (1991 + 1 - 1990)).flatMap fun yr =>
        (Omdb.canonicalTypeStrs ⟨true, true, false⟩).map fun t =>
          (⟨some t, some yr⟩ : Omdb.FilterParameters)).take 10 :=
  claim_c7_cartesian_order ⟨⟨true, true, false⟩, some ⟨1990, 1991⟩⟩ 10
    ⟨1990, 1991⟩ (by decide) rfl
